import Mathlib

/-!
Verification of the JsonSerializer engine (include/JsonSerializer.h) against its
natural-language specification.

The development shallowly embeds:
  - the value tree (jsoncpp's Json::Value) as `JValue`; the jsoncpp library is part
    of the repository but its sources are not under src/, so the tree operations the
    serializer relies on are modelled from the spec (sections 2, 3, 4.2 and 6);
  - the universe of serializable C++ value shapes as `STy` (the static type, which
    drives C++ overload resolution) together with `SValue` (the runtime value);
  - each Serialize / Read / Write / WriteOnly / ReadOnly overload of the
    JsonSerializer class as a Lean function, with source line references.

C++ machine integers are modelled as `Int`/`Nat` with explicit reductions mod 2^32
(`toSigned32`, `% 2^32`) at exactly the places where the source casts.
-/

/-- A key is either a string (object member) or an integer index (array position);
mirrors the TKey template parameter (spec section 2, Key Abstraction). -/
inductive JKey where
  | str (s : String)
  | idx (i : Nat)

/-- Modelled from the spec: jsoncpp's Json::Value (the repository's value-tree class,
whose sources are not under src/) — a dynamically-typed node supporting
null/bool/number/string/array/object variants (spec section 3). Numbers written by the
serializer are always stored through the signed or unsigned 32-bit intermediate
(spec section 4.2), so the int variant carries the signed and the uint variant the
unsigned 32-bit payload. Floating-point nodes are outside this embedding. -/
inductive JValue where
  | null
  | bool (b : Bool)
  | int (n : Int)
  | uint (n : Nat)
  | str (s : String)
  | arr (elems : List JValue)
  | obj (fields : List (String × JValue))

/-- Replace the value at key `s` in an object's field list, or append the binding;
models jsoncpp object member assignment (std::map semantics). -/
def setField : List (String × JValue) → String → JValue → List (String × JValue)
  | [], s, v => [(s, v)]
  | (k, w) :: rest, s, v =>
      if k = s then (k, v) :: rest else (k, w) :: setField rest s v

/-- Replace the element at index `i`, padding with nulls when the index is past the
end; models jsoncpp array element assignment. The serializer only ever assigns
sequential indices, so only the replace/append cases are exercised. -/
def setIdx : List JValue → Nat → JValue → List JValue
  | [], 0, v => [v]
  | [], n + 1, v => JValue.null :: setIdx [] n v
  | _ :: rest, 0, v => v :: rest
  | x :: rest, n + 1, v => x :: setIdx rest n v

/-- Modelled from the spec: assignment `node[key] = v` (spec section 6: assign a
scalar or whole sub-node into a node at a given key). A null node becomes an object
or array as dictated by the key kind. On nodes of any other kind jsoncpp asserts;
that path is never exercised by the serializer, and the node is left unchanged. -/
def JValue.set : JValue → JKey → JValue → JValue
  | .obj fs, .str s, v => .obj (setField fs s v)
  | .null, .str s, v => .obj [(s, v)]
  | .arr xs, .idx i, v => .arr (setIdx xs i v)
  | .null, .idx i, v => .arr (setIdx [] i v)
  | jv, _, _ => jv

/-- Modelled from the spec: child lookup `node[key]` in read position (spec section 3:
an unset key yields a null child). -/
def JValue.get : JValue → JKey → JValue
  | .obj fs, .str s => (fs.lookup s).getD .null
  | .arr xs, .idx i => xs.getD i .null
  | _, _ => .null

/-- Json::Value::isNull. -/
def JValue.isNull : JValue → Bool
  | .null => true
  | _ => false

/-- Json::Value::isArray. -/
def JValue.isArray : JValue → Bool
  | .arr _ => true
  | _ => false

/-- Json::Value::isObject. -/
def JValue.isObject : JValue → Bool
  | .obj _ => true
  | _ => false

/-- Json::Value::size — number of array elements / object members. -/
def JValue.size : JValue → Nat
  | .arr xs => xs.length
  | .obj fs => fs.length
  | _ => 0

/-- The (key, value) members of an object node, in iteration order; models iterating
`JsonValue.begin() .. JsonValue.end()` (spec section 6). -/
def JValue.members : JValue → List (String × JValue)
  | .obj fs => fs
  | _ => []

/-- Json::Value::isMember — whether a string key is present in an object node. -/
def JValue.isMember : JValue → String → Bool
  | .obj fs, s => fs.any (fun p => p.1 = s)
  | _, _ => false

/-- The C++ conversion of an integer to `int` (32-bit two's complement). -/
def toSigned32 (n : Int) : Int := (n + 2 ^ 31) % 2 ^ 32 - 2 ^ 31

/-- The C++ conversion of an integer to 64-bit signed (`long long`). -/
def toSigned64 (n : Int) : Int := (n + 2 ^ 63) % 2 ^ 64 - 2 ^ 63

/-- Modelled from the spec: Json::Value::asInt — decode a node through the fixed-width
signed 32-bit intermediate (spec section 4.2). An unsigned payload above 2^31 - 1 is
reinterpreted in two's complement (the documented silent truncation). Non-numeric
nodes are never decoded by the serializer (it null-checks first and the engine only
stores numeric nodes at numeric fields); they decode to 0 here. -/
def JValue.asInt : JValue → Int
  | .int n => n
  | .uint n => toSigned32 n
  | .bool b => if b then 1 else 0
  | _ => 0

/-- Modelled from the spec: Json::Value::asUInt — decode through the unsigned 32-bit
intermediate (spec section 4.2). -/
def JValue.asUInt : JValue → Nat
  | .uint n => n
  | .int n => (n % 2 ^ 32).toNat
  | .bool b => if b then 1 else 0
  | _ => 0

/-- Modelled from the spec: Json::Value::asBool (spec section 4.2: booleans are
represented 1:1 with the tree's native boolean node kind). -/
def JValue.asBool : JValue → Bool
  | .bool b => b
  | .int n => n != 0
  | .uint n => n != 0
  | _ => false

/-- Modelled from the spec: Json::Value::asString (spec section 4.2: strings are
represented 1:1 with the tree's native string node kind). -/
def JValue.asString : JValue → String
  | .str s => s
  | _ => ""

/-- The static C++ type of a serialized value, which drives overload resolution in
JsonSerializer: a fundamental scalar (int / unsigned int / bool), std::string, an
enum (underlying type int), std::vector / std::deque of an element type, a
std::map with std::string keys, or a class providing a Serialize member that
serializes a fixed list of named fields (spec section 4.1). -/
inductive STy where
  | cint
  | cuint
  | cbool
  | cstr
  | cenum
  | cseq (t : STy)
  | cmap (t : STy)
  | comp (fields : List (String × STy))

/-- A runtime C++ value of one of the supported shapes. A composite's field values
are stored positionally; their names live in the `STy`. -/
inductive SValue where
  | int (n : Int)
  | uint (n : Nat)
  | bool (b : Bool)
  | str (s : String)
  | enum (n : Int)
  | seq (xs : List SValue)
  | map (m : List (String × SValue))
  | comp (fvs : List SValue)

/-- The underlying integer of an enum value (junk 0 on other shapes, which
well-typedness excludes). -/
def SValue.enumVal : SValue → Int
  | .enum n => n
  | _ => 0

/-- The field values of a composite value. -/
def SValue.fieldVals : SValue → List SValue
  | .comp fvs => fvs
  | _ => []

mutual
/-- The default-constructed (value-initialized) C++ value of a given static type:
zero for scalars, the empty string / container, and a composite whose fields are
recursively default-constructed. -/
def STy.default : STy → SValue
  | .cint => .int 0
  | .cuint => .uint 0
  | .cbool => .bool false
  | .cstr => .str ""
  | .cenum => .enum 0
  | .cseq _ => .seq []
  | .cmap _ => .map []
  | .comp fts => .comp (defaultFields fts)
termination_by t => (sizeOf t, 0)

/-- Default-constructed values for a composite's field list. -/
def defaultFields : List (String × STy) → List SValue
  | [] => []
  | (_, t) :: rest => STy.default t :: defaultFields rest
termination_by fts => (sizeOf fts, 1)
end

/-- Whether a list of keys has no duplicates (std::map invariant; also required of a
composite's field names, which are distinct identifiers in C++). -/
def distinctKeys : List String → Bool
  | [] => true
  | s :: rest => !(rest.contains s) && distinctKeys rest

mutual
/-- Whether a runtime value is of the given static type. Numeric payloads are
required to lie within the documented 32-bit bounds (spec section 4.2); map keys and
composite field names are distinct. This is exactly the well-formedness C++ static
typing guarantees for a value passed to `Serialize`. -/
def wellTyped : STy → SValue → Bool
  | .cint, .int n => decide (-(2 ^ 31) ≤ n) && decide (n < 2 ^ 31)
  | .cuint, .uint n => decide (n < 2 ^ 32)
  | .cbool, .bool _ => true
  | .cstr, .str _ => true
  | .cenum, .enum n => decide (-(2 ^ 31) ≤ n) && decide (n < 2 ^ 31)
  | .cseq t, .seq xs => wtList t xs
  | .cmap t, .map m => distinctKeys (m.map Prod.fst) && wtEntries t m
  | .comp fts, .comp fvs => distinctKeys (fts.map Prod.fst) && wtFields fts fvs
  | _, _ => false
termination_by t _ => (sizeOf t, 0)

/-- All elements of a sequence are of the element type. -/
def wtList : STy → List SValue → Bool
  | _, [] => true
  | t, x :: rest => wellTyped t x && wtList t rest
termination_by t xs => (sizeOf t, 1 + xs.length)

/-- All values of a map are of the mapped type. -/
def wtEntries : STy → List (String × SValue) → Bool
  | _, [] => true
  | t, (_, x) :: rest => wellTyped t x && wtEntries t rest
termination_by t m => (sizeOf t, 1 + m.length)

/-- The field values match the composite's field types, positionally. -/
def wtFields : List (String × STy) → List SValue → Bool
  | [], [] => true
  | (_, tf) :: fts, fv :: fvs => wellTyped tf fv && wtFields fts fvs
  | _, _ => false
termination_by fts fvs => (sizeOf fts, 1 + fvs.length)
end

mutual
/-- The symmetric entry point JsonSerializer::Serialize in Write mode (IsWriter),
acting on the context's JsonValue. One clause per C++ overload, dispatched by the
static type:
  - lines 119-126 fundamental scalars and lines 334-338 generic Write
    (int / unsigned int / bool assign the scalar node directly);
  - lines 109-116 std::string;
  - lines 129-142 enums: `int ival = (int) value; Write(key, ival)`;
  - lines 196-208 vectors (and lines 227-240 deques, identical): delegates to the
    iterator-range WriteOnly (lines 153-168), which binds a child context to a fresh
    empty array node and serializes each element at its integer index;
  - lines 276-289 maps: delegates to WriteOnly (lines 262-274), which binds a child
    context to a fresh (null) node and serializes each entry at its string key;
  - lines 91-106 classes: binds a child context to a fresh (null) node, recurses via
    SerializeImpl into the value's Serialize member (one call per named field), and
    unconditionally attaches the child node at the key.
Static types with no matching overload (the final clause) are a C++ compile error
and return the tree unchanged. -/
def serializeW : STy → JValue → JKey → SValue → JValue
  | .cint, jv, k, .int n => jv.set k (.int n)
  | .cuint, jv, k, .uint n => jv.set k (.uint n)
  | .cbool, jv, k, .bool b => jv.set k (.bool b)
  | .cstr, jv, k, .str s => jv.set k (.str s)
  | .cenum, jv, k, .enum n => jv.set k (.int (toSigned32 n))
  | .cseq t, jv, k, .seq xs => jv.set k (writeSeqLoop t xs 0 (.arr []))
  | .cmap t, jv, k, .map m => jv.set k (writeMapLoop t m .null)
  | .comp fts, jv, k, .comp fvs => jv.set k (writeFields fts fvs .null)
  | _, jv, _, _ => jv
termination_by t _ _ _ => (sizeOf t, 0)

/-- The loop of WriteOnly(key, first, last) (lines 159-166): `subVal.Serialize(index,
*it)` for each element, with `index` starting at 0, over the child context's
accumulating array node. -/
def writeSeqLoop : STy → List SValue → Nat → JValue → JValue
  | _, [], _, acc => acc
  | t, x :: rest, i, acc => writeSeqLoop t rest (i + 1) (serializeW t acc (.idx i) x)
termination_by t xs _ _ => (sizeOf t, 1 + xs.length)

/-- The loop of WriteOnly(key, map) (lines 268-272): `subVal.Serialize(it->first,
it->second)` for each entry, over the child context's node (initially null). -/
def writeMapLoop : STy → List (String × SValue) → JValue → JValue
  | _, [], acc => acc
  | t, (s, x) :: rest, acc => writeMapLoop t rest (serializeW t acc (.str s) x)
termination_by t m _ => (sizeOf t, 1 + m.length)

/-- The body of a composite's Serialize member in Write mode (reached through
SerializeImpl, lines 62-78): one `serializer(name, field)` call per named field,
over the child context's node (initially null). -/
def writeFields : List (String × STy) → List SValue → JValue → JValue
  | _, [], acc => acc
  | [], _, acc => acc
  | (n, tf) :: fts, fv :: fvs, acc => writeFields fts fvs (serializeW tf acc (.str n) fv)
termination_by fts fvs _ => (sizeOf fts, 1 + fvs.length)
end

/-- std::map insertion `m[key] = value` (line 258): replace the value at the key, or
append the binding. -/
def mapIns : List (String × SValue) → String → SValue → List (String × SValue)
  | [], s, v => [(s, v)]
  | (k, w) :: rest, s, v =>
      if k = s then (k, v) :: rest else (k, w) :: mapIns rest s v

mutual
/-- The read-direction decode of one tree node `sub` into a destination value `v`.
Every Serialize overload in Read mode fetches `JsonValue[key]` and then performs
exactly this on it (see `serializeR`). One clause per C++ overload:
  - lines 377-384 int, 395-402 unsigned int, 368-375 bool, 440-447 std::string:
    null leaves the destination unmodified, otherwise asInt/asUInt/asBool/asString;
  - lines 129-142 enums: `int ival = (int) value; Read(key, ival); value = (TEnum)
    ival` — on a null node the value is rewritten as `(TEnum)(int) value`;
  - lines 177-193 ReadOnly(vector) (and lines 210-225 ReadOnly(deque), identical):
    a non-array node aborts leaving the destination untouched, otherwise the
    destination is cleared and one element per array index is default-constructed,
    deserialized from that index, and appended;
  - lines 242-260 ReadOnly(map): a non-object node aborts leaving the destination
    untouched, otherwise the destination is cleared and for every key of the input
    object a value is default-constructed, deserialized under that key, and inserted;
  - lines 91-106 classes: a null node aborts leaving the destination untouched,
    otherwise the value's Serialize member reads each named field from the node. -/
def readNode : STy → JValue → SValue → SValue
  | .cint, sub, v => if sub.isNull then v else .int sub.asInt
  | .cuint, sub, v => if sub.isNull then v else .uint sub.asUInt
  | .cbool, sub, v => if sub.isNull then v else .bool sub.asBool
  | .cstr, sub, v => if sub.isNull then v else .str sub.asString
  | .cenum, sub, v => if sub.isNull then .enum (toSigned32 v.enumVal) else .enum sub.asInt
  | .cseq t, sub, v => if sub.isArray then .seq (readSeqIdx t sub (List.range sub.size)) else v
  | .cmap t, sub, v => if sub.isObject then .map (readMapLoop t sub sub.members []) else v
  | .comp fts, sub, v => if sub.isNull then v else .comp (readFields fts sub v.fieldVals)
termination_by t _ _ => (sizeOf t, 0)

/-- The loop of ReadOnly(vector) (lines 187-192) over the remaining indices: `TValue
val; Serialize(i, val); vec.push_back(val)` — each element is read from the array
node at its index into a default-constructed value. -/
def readSeqIdx : STy → JValue → List Nat → List SValue
  | _, _, [] => []
  | t, sub, i :: rest => readNode t (sub.get (.idx i)) (STy.default t) :: readSeqIdx t sub rest
termination_by t _ is => (sizeOf t, 1 + is.length)

/-- The loop of ReadOnly(map) (lines 251-259) over the remaining input-object
members, carrying the map being built (starting from the cleared map): for each
member key, `TValue value; Serialize(key, value); m[key] = value` — the value is
read from the object node at that key into a default-constructed value and inserted.
The per-iteration `subVal` context constructed at line 253 is never used by the loop
body (`Serialize` reads from the object node itself) and has no effect. -/
def readMapLoop : STy → JValue → List (String × JValue) → List (String × SValue) →
    List (String × SValue)
  | _, _, [], acc => acc
  | t, sub, (s, _) :: rest, acc =>
      readMapLoop t sub rest (mapIns acc s (readNode t (sub.get (.str s)) (STy.default t)))
termination_by t _ fs _ => (sizeOf t, 1 + fs.length)

/-- The body of a composite's Serialize member in Read mode: one `serializer(name,
field)` call per named field, each reading from the bound node into the field's
current value. -/
def readFields : List (String × STy) → JValue → List SValue → List SValue
  | _, _, [] => []
  | [], _, fvs => fvs
  | (n, tf) :: fts, sub, fv :: fvs => readNode tf (sub.get (.str n)) fv :: readFields fts sub fvs
termination_by fts _ fvs => (sizeOf fts, 1 + fvs.length)
end

/-- The symmetric entry point JsonSerializer::Serialize in Read mode: every overload
first fetches the child node `JsonValue[key]` (directly for scalars/strings/enums,
lines 358-447; via `subVal.JsonValue = JsonValue[key]` for classes, line 97, vectors,
line 205, deques, line 237, and maps, line 286) and then decodes it into the
destination as in `readNode`. -/
def serializeR (t : STy) (jv : JValue) (k : JKey) (v : SValue) : SValue :=
  readNode t (jv.get k) v

/-- The serializer context (lines 36-89, 330-331): a mode flag fixed by the
constructor `JsonSerializer(bool isWriter)` together with the bound tree node. -/
structure JsonSerializer where
  IsWriter : Bool
  JsonValue : JValue := .null

/-- The symmetric entry point `Serialize(key, value)`: in Write mode it updates the
bound tree (the destination value is untouched); in Read mode it updates the
destination value (the tree is untouched). Returns the updated context and value. -/
def JsonSerializer.Serialize (s : JsonSerializer) (t : STy) (k : JKey) (v : SValue) :
    JsonSerializer × SValue :=
  if s.IsWriter then ({ s with JsonValue := serializeW t s.JsonValue k v }, v)
  else (s, serializeR t s.JsonValue k v)

/-- WriteOnly for fundamental values (lines 145-150): `if (IsWriter) Write(key,
value)` — for the scalar types, Write is exactly the write-mode Serialize. -/
def JsonSerializer.WriteOnlyFund (s : JsonSerializer) (t : STy) (k : JKey) (v : SValue) :
    JsonSerializer :=
  if s.IsWriter then { s with JsonValue := serializeW t s.JsonValue k v } else s

/-- WriteOnly for an iterator range (lines 152-168): a no-op unless IsWriter;
otherwise a child context bound to a fresh empty array node serializes each element
of the range at its integer index, and the array is attached at the key. -/
def JsonSerializer.WriteOnlyRange (s : JsonSerializer) (t : STy) (k : JKey)
    (xs : List SValue) : JsonSerializer :=
  if !s.IsWriter then s
  else { s with JsonValue := s.JsonValue.set k (writeSeqLoop t xs 0 (.arr [])) }

/-- WriteOnly for a string-keyed map (lines 262-274): a no-op unless IsWriter;
otherwise a child context bound to a fresh (null) node serializes each entry at its
string key, and the child node is attached at the key. -/
def JsonSerializer.WriteOnlyMap (s : JsonSerializer) (t : STy) (k : JKey)
    (m : List (String × SValue)) : JsonSerializer :=
  if !s.IsWriter then s
  else { s with JsonValue := s.JsonValue.set k (writeMapLoop t m .null) }

/-- WriteOnly for a raw Json::Value (lines 291-296): `Write(key, value)` with no
mode check — the node is attached unconditionally, in Read mode as well. -/
def JsonSerializer.WriteOnlyJson (s : JsonSerializer) (k : JKey) (v : JValue) :
    JsonSerializer :=
  { s with JsonValue := s.JsonValue.set k v }

/-- WriteOnly for a pointer to a non-fundamental value (lines 305-309): forwards to
the symmetric `Serialize(key, *value)` with no mode check, so in Read mode it
performs the read-direction algorithm on the pointee. -/
def JsonSerializer.WriteOnlyPtr (s : JsonSerializer) (t : STy) (k : JKey) (v : SValue) :
    JsonSerializer × SValue :=
  s.Serialize t k v

/-- ReadOnly for fundamental values (lines 170-175): `if (!IsWriter) Read(key,
value)` — for the scalar types, Read is exactly the read-mode Serialize. -/
def JsonSerializer.ReadOnlyFund (s : JsonSerializer) (t : STy) (k : JKey) (v : SValue) :
    SValue :=
  if !s.IsWriter then serializeR t s.JsonValue k v else v

/-- ReadOnly for a vector (lines 177-193; deques, lines 210-225, are identical),
operating on the context's own bound node: a no-op when IsWriter, otherwise the
array decode of `readNode`. -/
def JsonSerializer.ReadOnlyVec (s : JsonSerializer) (t : STy) (v : SValue) : SValue :=
  if s.IsWriter then v else readNode (.cseq t) s.JsonValue v

/-- ReadOnly for a string-keyed map (lines 242-260), operating on the context's own
bound node: a no-op when IsWriter, otherwise the object decode of `readNode`. -/
def JsonSerializer.ReadOnlyMapOp (s : JsonSerializer) (t : STy) (v : SValue) : SValue :=
  if s.IsWriter then v else readNode (.cmap t) s.JsonValue v

/-- Write overload for `long` (lines 340-344): `JsonValue[key] = (int) value`. -/
def Write_long (jv : JValue) (k : JKey) (value : Int) : JValue :=
  jv.set k (.int (toSigned32 value))

/-- Write overload for `unsigned long` (lines 346-350): `JsonValue[key] = (unsigned
int) value`. -/
def Write_unsigned_long (jv : JValue) (k : JKey) (value : Nat) : JValue :=
  jv.set k (.uint (value % 2 ^ 32))

/-- Write overload for `size_t` (lines 352-356): `JsonValue[key] = (unsigned int)
value`. -/
def Write_size_t (jv : JValue) (k : JKey) (value : Nat) : JValue :=
  jv.set k (.uint (value % 2 ^ 32))

/-- Read overload for `long` (lines 386-393): null leaves the destination, otherwise
`value = subval.asInt()`. -/
def Read_long (jv : JValue) (k : JKey) (value : Int) : Int :=
  let subval := jv.get k
  if subval.isNull then value else subval.asInt

/-- Read overload for `unsigned long` (lines 404-411): null leaves the destination,
otherwise `value = subval.asUInt()`. -/
def Read_unsigned_long (jv : JValue) (k : JKey) (value : Nat) : Nat :=
  let subval := jv.get k
  if subval.isNull then value else subval.asUInt

/-- The generic arithmetic Read overload (lines 358-366), selected for arithmetic
destination types with no dedicated overload (short, char, unsigned short, long
long, ...): `int ival = subval.asInt(); value = (TValue) ival`. `castDest` is the
C++ conversion from `int` to the concrete destination type (for `long long` it is
`toSigned64`, the identity on the range of `int`). -/
def Read_arith (castDest : Int → Int) (jv : JValue) (k : JKey) (value : Int) : Int :=
  let subval := jv.get k
  if subval.isNull then value else castDest subval.asInt

/-- The modes passed to the child-context constructor `JsonSerializer
subVal(IsWriter)` at each construction site reached directly by one symmetric
Serialize call: line 94 (classes, both modes), line 159 (vector/deque write, via
WriteOnly) and lines 204/236 (vector/deque read), line 268 (map write, via
WriteOnly) and line 285 plus one site per input-object member at line 253 (map
read). Scalar, string and enum overloads construct no child context. -/
def childContextModes (s : JsonSerializer) (t : STy) (k : JKey) : List Bool :=
  match t with
  | .comp _ => [s.IsWriter]
  | .cseq _ => [s.IsWriter]
  | .cmap _ =>
      if s.IsWriter then [s.IsWriter]
      else s.IsWriter :: (s.JsonValue.get k).members.map (fun _ => s.IsWriter)
  | _ => []

mutual
/-- The tree node that the write-mode Serialize attaches at the key for a given
(well-typed) value: every write-mode overload ends in `JsonValue[key] = node` with
the node built independently of the parent tree. The lemma `serializeW_eq_set`
proves that `serializeW t jv k v = jv.set k (writtenNode t v)`. -/
def writtenNode : STy → SValue → JValue
  | .cint, .int n => .int n
  | .cuint, .uint n => .uint n
  | .cbool, .bool b => .bool b
  | .cstr, .str s => .str s
  | .cenum, .enum n => .int (toSigned32 n)
  | .cseq t, .seq xs => .arr (writtenList t xs)
  | .cmap _, .map [] => .null
  | .cmap t, .map (e :: rest) => .obj (writtenEntries t (e :: rest))
  | .comp _, .comp [] => .null
  | .comp [], .comp _ => .null
  | .comp (ft :: fts), .comp (fv :: fvs) => .obj (writtenFields (ft :: fts) (fv :: fvs))
  | _, _ => .null
termination_by t _ => (sizeOf t, 0)

/-- The array elements written for a sequence. -/
def writtenList : STy → List SValue → List JValue
  | _, [] => []
  | t, x :: rest => writtenNode t x :: writtenList t rest
termination_by t xs => (sizeOf t, 1 + xs.length)

/-- The object members written for a map. -/
def writtenEntries : STy → List (String × SValue) → List (String × JValue)
  | _, [] => []
  | t, (s, x) :: rest => (s, writtenNode t x) :: writtenEntries t rest
termination_by t m => (sizeOf t, 1 + m.length)

/-- The object members written for a composite. -/
def writtenFields : List (String × STy) → List SValue → List (String × JValue)
  | _, [] => []
  | [], _ => []
  | (n, tf) :: fts, fv :: fvs => (n, writtenNode tf fv) :: writtenFields fts fvs
termination_by fts fvs => (sizeOf fts, 1 + fvs.length)
end

theorem toSigned32_eq_self {n : Int} (h1 : -(2 ^ 31) ≤ n) (h2 : n < 2 ^ 31) :
    toSigned32 n = n := by
  unfold toSigned32
  have h3 : (n + 2 ^ 31) % 2 ^ 32 = n + 2 ^ 31 := Int.emod_eq_of_lt (by omega) (by omega)
  omega

theorem setIdx_length_append (es : List JValue) (w : JValue) :
    setIdx es es.length w = es ++ [w] := by
  induction es with
  | nil => rfl
  | cons x rest ih => simpa [setIdx] using ih

theorem setIdx_nil_getD (i : Nat) (w : JValue) : (setIdx [] i w).getD i .null = w := by
  induction i with
  | zero => rfl
  | succ n ih => simpa [setIdx] using ih

theorem get_set_null (k : JKey) (w : JValue) : (JValue.null.set k w).get k = w := by
  cases k with
  | str s => simp [JValue.set, JValue.get, List.lookup]
  | idx i =>
    simp only [JValue.set, JValue.get]
    exact setIdx_nil_getD i w

theorem setField_fresh : ∀ (fs : List (String × JValue)) (s : String) (v : JValue),
    s ∉ fs.map Prod.fst → setField fs s v = fs ++ [(s, v)] := by
  intro fs
  induction fs with
  | nil => intro s v _; rfl
  | cons p rest ih =>
    obtain ⟨k, w⟩ := p
    intro s v h
    simp only [List.map_cons, List.mem_cons, not_or] at h
    have hks : ¬k = s := fun hh => h.1 hh.symm
    simp [setField, hks, ih s v h.2]

theorem mapIns_fresh : ∀ (m : List (String × SValue)) (s : String) (v : SValue),
    s ∉ m.map Prod.fst → mapIns m s v = m ++ [(s, v)] := by
  intro m
  induction m with
  | nil => intro s v _; rfl
  | cons p rest ih =>
    obtain ⟨k, w⟩ := p
    intro s v h
    simp only [List.map_cons, List.mem_cons, not_or] at h
    have hks : ¬k = s := fun hh => h.1 hh.symm
    simp [mapIns, hks, ih s v h.2]

theorem distinctKeys_cons_iff {s : String} {rest : List String} :
    distinctKeys (s :: rest) = true ↔ s ∉ rest ∧ distinctKeys rest = true := by
  simp [distinctKeys, List.contains, List.elem_iff]

theorem lookup_of_distinct : ∀ (fs : List (String × JValue)) (s : String) (w : JValue),
    distinctKeys (fs.map Prod.fst) = true → (s, w) ∈ fs → fs.lookup s = some w := by
  intro fs
  induction fs with
  | nil => intro s w _ hm; cases hm
  | cons p rest ih =>
    obtain ⟨k, w'⟩ := p
    intro s w hd hm
    rw [List.map_cons] at hd
    have hd' := distinctKeys_cons_iff.mp hd
    rcases List.mem_cons.mp hm with heq | hrest
    · injection heq with h1 h2
      subst h1; subst h2
      simp [List.lookup]
    · have hne : k ≠ s := by
        intro hk
        exact hd'.1 (hk ▸ List.mem_map.mpr ⟨(s, w), hrest, rfl⟩)
      simp only [List.lookup]
      rw [show (s == k) = false by simpa [beq_iff_eq] using fun hh => hne hh.symm]
      exact ih s w hd'.2 hrest

/-- Structural induction over static types, giving the composite case access to all
field types. -/
theorem STy.indOn {P : STy → Prop} (hint : P .cint) (huint : P .cuint) (hbool : P .cbool)
    (hstr : P .cstr) (henum : P .cenum) (hseq : ∀ t, P t → P (.cseq t))
    (hmap : ∀ t, P t → P (.cmap t))
    (hcomp : ∀ fts, (∀ p ∈ fts, P p.2) → P (.comp fts)) : ∀ t, P t
  | .cint => hint
  | .cuint => huint
  | .cbool => hbool
  | .cstr => hstr
  | .cenum => henum
  | .cseq t => hseq t (STy.indOn hint huint hbool hstr henum hseq hmap hcomp t)
  | .cmap t => hmap t (STy.indOn hint huint hbool hstr henum hseq hmap hcomp t)
  | .comp fts => hcomp fts (fun p hp =>
      STy.indOn hint huint hbool hstr henum hseq hmap hcomp p.2)
termination_by t => sizeOf t
decreasing_by
  all_goals simp_wf
  all_goals have h1 := List.sizeOf_lt_of_mem hp
  all_goals obtain ⟨a, b⟩ := p
  all_goals simp at h1 ⊢
  all_goals omega

theorem wtList_mem {t : STy} : ∀ {xs : List SValue}, wtList t xs = true →
    ∀ {x : SValue}, x ∈ xs → wellTyped t x = true := by
  intro xs
  induction xs with
  | nil => intro _ x hx; cases hx
  | cons y rest ih =>
    intro h x hx
    simp only [wtList, Bool.and_eq_true] at h
    rcases List.mem_cons.mp hx with rfl | hr
    · exact h.1
    · exact ih h.2 hr

theorem wtEntries_mem {t : STy} : ∀ {m : List (String × SValue)}, wtEntries t m = true →
    ∀ {p : String × SValue}, p ∈ m → wellTyped t p.2 = true := by
  intro m
  induction m with
  | nil => intro _ p hp; cases hp
  | cons e rest ih =>
    obtain ⟨s, x⟩ := e
    intro h p hp
    simp only [wtEntries, Bool.and_eq_true] at h
    rcases List.mem_cons.mp hp with rfl | hr
    · exact h.1
    · exact ih h.2 hr

theorem wtFields_length : ∀ {fts : List (String × STy)} {fvs : List SValue},
    wtFields fts fvs = true → fts.length = fvs.length := by
  intro fts
  induction fts with
  | nil =>
    intro fvs h
    cases fvs with
    | nil => rfl
    | cons fv fvs => simp [wtFields] at h
  | cons ft fts ih =>
    obtain ⟨n, tf⟩ := ft
    intro fvs h
    cases fvs with
    | nil => simp [wtFields] at h
    | cons fv fvs =>
      simp only [wtFields, Bool.and_eq_true] at h
      simp [ih h.2]

theorem wtFields_zip : ∀ {fts : List (String × STy)} {fvs : List SValue},
    wtFields fts fvs = true →
    ∀ {p : (String × STy) × SValue}, p ∈ List.zip fts fvs → wellTyped p.1.2 p.2 = true := by
  intro fts
  induction fts with
  | nil => intro fvs _ p hp; simp at hp
  | cons ft fts ih =>
    obtain ⟨n, tf⟩ := ft
    intro fvs h p hp
    cases fvs with
    | nil => simp [wtFields] at h
    | cons fv fvs =>
      simp only [wtFields, Bool.and_eq_true] at h
      rcases List.mem_cons.mp (by simpa [List.zip_cons_cons] using hp) with rfl | hr
      · exact h.1
      · exact ih h.2 hr

theorem writeSeqLoop_eq (t : STy) : ∀ xs : List SValue,
    (∀ x ∈ xs, ∀ (jv : JValue) (k : JKey), serializeW t jv k x = jv.set k (writtenNode t x)) →
    ∀ es : List JValue, writeSeqLoop t xs es.length (.arr es) = .arr (es ++ writtenList t xs) := by
  intro xs
  induction xs with
  | nil => intro _ es; simp [writeSeqLoop, writtenList]
  | cons x rest ih =>
    intro H es
    simp only [writeSeqLoop]
    rw [H x (List.mem_cons_self x rest)]
    rw [show (JValue.arr es).set (.idx es.length) (writtenNode t x)
          = .arr (es ++ [writtenNode t x]) by simp [JValue.set, setIdx_length_append]]
    have h2 := ih (fun y hy => H y (List.mem_cons_of_mem x hy)) (es ++ [writtenNode t x])
    simp only [List.length_append, List.length_cons, List.length_nil, Nat.zero_add] at h2
    rw [h2]
    simp [writtenList]

theorem writeMapLoop_obj (t : STy) : ∀ m : List (String × SValue),
    (∀ p ∈ m, ∀ (jv : JValue) (k : JKey), serializeW t jv k p.2 = jv.set k (writtenNode t p.2)) →
    distinctKeys (m.map Prod.fst) = true →
    ∀ fs : List (String × JValue), (∀ p ∈ m, p.1 ∉ fs.map Prod.fst) →
    writeMapLoop t m (.obj fs) = .obj (fs ++ writtenEntries t m) := by
  intro m
  induction m with
  | nil => intro _ _ fs _; simp [writeMapLoop, writtenEntries]
  | cons e rest ih =>
    obtain ⟨s, x⟩ := e
    intro H hdist fs hfresh
    simp only [writeMapLoop]
    rw [H (s, x) (List.mem_cons_self _ _)]
    simp only [JValue.set]
    rw [setField_fresh fs s _ (hfresh (s, x) (List.mem_cons_self _ _))]
    rw [List.map_cons] at hdist
    have hdist' := distinctKeys_cons_iff.mp hdist
    have hfresh' : ∀ p ∈ rest, p.1 ∉ (fs ++ [(s, writtenNode t x)]).map Prod.fst := by
      intro p hp
      simp only [List.map_append, List.mem_append, not_or]
      refine ⟨hfresh p (List.mem_cons_of_mem _ hp), ?_⟩
      simp only [List.map_cons, List.map_nil, List.mem_singleton]
      intro hps
      exact hdist'.1 (hps ▸ List.mem_map.mpr ⟨p, hp, rfl⟩)
    rw [ih (fun p hp => H p (List.mem_cons_of_mem _ hp)) hdist'.2
          (fs ++ [(s, writtenNode t x)]) hfresh']
    simp [writtenEntries]

theorem writeMapLoop_null (t : STy) (m : List (String × SValue))
    (H : ∀ p ∈ m, ∀ (jv : JValue) (k : JKey), serializeW t jv k p.2 = jv.set k (writtenNode t p.2))
    (hdist : distinctKeys (m.map Prod.fst) = true) :
    writeMapLoop t m .null = writtenNode (.cmap t) (.map m) := by
  cases m with
  | nil => simp [writeMapLoop, writtenNode]
  | cons e rest =>
    obtain ⟨s, x⟩ := e
    simp only [writeMapLoop]
    rw [H (s, x) (List.mem_cons_self _ _)]
    simp only [JValue.set]
    rw [List.map_cons] at hdist
    have hdist' := distinctKeys_cons_iff.mp hdist
    have hfresh : ∀ p ∈ rest, p.1 ∉ ([(s, writtenNode t x)] : List (String × JValue)).map Prod.fst := by
      intro p hp
      simp only [List.map_cons, List.map_nil, List.mem_singleton]
      intro hps
      exact hdist'.1 (hps ▸ List.mem_map.mpr ⟨p, hp, rfl⟩)
    rw [writeMapLoop_obj t rest (fun p hp => H p (List.mem_cons_of_mem _ hp)) hdist'.2
          [(s, writtenNode t x)] hfresh]
    simp [writtenNode, writtenEntries]

theorem writeFields_obj : ∀ (fts : List (String × STy)) (fvs : List SValue),
    (∀ p ∈ List.zip fts fvs, ∀ (jv : JValue) (k : JKey),
        serializeW p.1.2 jv k p.2 = jv.set k (writtenNode p.1.2 p.2)) →
    distinctKeys (fts.map Prod.fst) = true →
    ∀ fs : List (String × JValue), (∀ n ∈ fts.map Prod.fst, n ∉ fs.map Prod.fst) →
    writeFields fts fvs (.obj fs) = .obj (fs ++ writtenFields fts fvs) := by
  intro fts
  induction fts with
  | nil =>
    intro fvs _ _ fs _
    cases fvs <;> simp [writeFields, writtenFields]
  | cons ft fts ih =>
    obtain ⟨n, tf⟩ := ft
    intro fvs H hdist fs hfresh
    cases fvs with
    | nil => simp [writeFields, writtenFields]
    | cons fv fvs =>
      simp only [writeFields]
      rw [H ((n, tf), fv) (by simp [List.zip_cons_cons])]
      simp only [JValue.set]
      rw [setField_fresh fs n _ (hfresh n (by simp))]
      rw [List.map_cons] at hdist
      have hdist' := distinctKeys_cons_iff.mp hdist
      have hfresh' : ∀ nm ∈ fts.map Prod.fst,
          nm ∉ (fs ++ [(n, writtenNode tf fv)]).map Prod.fst := by
        intro nm hnm
        simp only [List.map_append, List.mem_append, not_or]
        refine ⟨hfresh nm (by simp [hnm]), ?_⟩
        simp only [List.map_cons, List.map_nil, List.mem_singleton]
        intro heq
        exact hdist'.1 (heq ▸ hnm)
      rw [ih fvs (fun p hp => H p (by simp [List.zip_cons_cons, hp])) hdist'.2
            (fs ++ [(n, writtenNode tf fv)]) hfresh']
      simp [writtenFields]

theorem writeFields_null (fts : List (String × STy)) (fvs : List SValue)
    (H : ∀ p ∈ List.zip fts fvs, ∀ (jv : JValue) (k : JKey),
        serializeW p.1.2 jv k p.2 = jv.set k (writtenNode p.1.2 p.2))
    (hdist : distinctKeys (fts.map Prod.fst) = true) :
    writeFields fts fvs .null = writtenNode (.comp fts) (.comp fvs) := by
  cases fts with
  | nil => cases fvs <;> simp [writeFields, writtenNode]
  | cons ft fts =>
    obtain ⟨n, tf⟩ := ft
    cases fvs with
    | nil => simp [writeFields, writtenNode]
    | cons fv fvs =>
      simp only [writeFields]
      rw [H ((n, tf), fv) (by simp [List.zip_cons_cons])]
      simp only [JValue.set]
      rw [List.map_cons] at hdist
      have hdist' := distinctKeys_cons_iff.mp hdist
      have hfresh : ∀ nm ∈ fts.map Prod.fst,
          nm ∉ ([(n, writtenNode tf fv)] : List (String × JValue)).map Prod.fst := by
        intro nm hnm
        simp only [List.map_cons, List.map_nil, List.mem_singleton]
        intro heq
        exact hdist'.1 (heq ▸ hnm)
      rw [writeFields_obj fts fvs (fun p hp => H p (by simp [List.zip_cons_cons, hp])) hdist'.2
            [(n, writtenNode tf fv)] hfresh]
      simp [writtenNode, writtenFields]

/-- Every write-mode Serialize overload factors as attaching a node, built from the
value alone, at the given key: the overloads all end in `JsonValue[key] = node`
(lines 105, 113, 123, 135, 167, 273, 295, 337-355). -/
theorem serializeW_eq_set : ∀ (t : STy) (v : SValue), wellTyped t v = true →
    ∀ (jv : JValue) (k : JKey), serializeW t jv k v = jv.set k (writtenNode t v) := by
  intro t
  induction t using STy.indOn with
  | hint => intro v h jv k; cases v <;> simp_all [wellTyped, serializeW, writtenNode]
  | huint => intro v h jv k; cases v <;> simp_all [wellTyped, serializeW, writtenNode]
  | hbool => intro v h jv k; cases v <;> simp_all [wellTyped, serializeW, writtenNode]
  | hstr => intro v h jv k; cases v <;> simp_all [wellTyped, serializeW, writtenNode]
  | henum => intro v h jv k; cases v <;> simp_all [wellTyped, serializeW, writtenNode]
  | hseq t ih =>
    intro v h jv k
    cases v
    case seq xs =>
      simp only [wellTyped] at h
      simp only [serializeW, writtenNode]
      congr 1
      simpa using writeSeqLoop_eq t xs (fun x hx => ih x (wtList_mem h hx)) []
    all_goals simp [wellTyped] at h
  | hmap t ih =>
    intro v h jv k
    cases v
    case map m =>
      simp only [wellTyped, Bool.and_eq_true] at h
      simp only [serializeW]
      rw [writeMapLoop_null t m (fun p hp => ih p.2 (wtEntries_mem h.2 hp)) h.1]
    all_goals simp [wellTyped] at h
  | hcomp fts ihf =>
    intro v h jv k
    cases v
    case comp fvs =>
      simp only [wellTyped, Bool.and_eq_true] at h
      simp only [serializeW]
      rw [writeFields_null fts fvs
            (fun p hp => ihf p.1 (List.of_mem_zip hp).1 p.2 (wtFields_zip h.2 hp)) h.1]
    all_goals simp [wellTyped] at h

theorem writtenList_length (t : STy) : ∀ xs : List SValue,
    (writtenList t xs).length = xs.length := by
  intro xs
  induction xs with
  | nil => simp [writtenList]
  | cons x rest ih => simp [writtenList, ih]

theorem getD_append_cons : ∀ (pre : List JValue) (w : JValue) (ws : List JValue),
    (pre ++ w :: ws).getD pre.length .null = w := by
  intro pre
  induction pre with
  | nil => intro w ws; rfl
  | cons x rest ih => intro w ws; simpa [List.getD_cons_succ] using ih w ws

theorem readSeqIdx_decode (t : STy) : ∀ xs : List SValue,
    (∀ x ∈ xs, readNode t (writtenNode t x) t.default = x) →
    ∀ pre : List JValue,
    readSeqIdx t (.arr (pre ++ writtenList t xs)) (List.range' pre.length xs.length) = xs := by
  intro xs
  induction xs with
  | nil => intro _ pre; simp [readSeqIdx]
  | cons x rest ih =>
    intro H pre
    rw [List.length_cons, List.range'_succ]
    simp only [readSeqIdx]
    have hget : (JValue.arr (pre ++ writtenList t (x :: rest))).get (.idx pre.length)
        = writtenNode t x := by
      simp only [JValue.get, writtenList]
      exact getD_append_cons pre _ _
    rw [hget, H x (List.mem_cons_self _ _)]
    have hrw : pre ++ writtenList t (x :: rest)
        = (pre ++ [writtenNode t x]) ++ writtenList t rest := by
      simp [writtenList]
    rw [hrw]
    have hlen : pre.length + 1 = (pre ++ [writtenNode t x]).length := by simp
    rw [hlen, ih (fun y hy => H y (List.mem_cons_of_mem _ hy)) (pre ++ [writtenNode t x])]

theorem writtenEntries_keys (t : STy) : ∀ m : List (String × SValue),
    (writtenEntries t m).map Prod.fst = m.map Prod.fst := by
  intro m
  induction m with
  | nil => simp [writtenEntries]
  | cons e rest ih =>
    obtain ⟨s, x⟩ := e
    simp [writtenEntries, ih]

theorem mem_writtenEntries (t : STy) : ∀ (m : List (String × SValue)) (p : String × SValue),
    p ∈ m → (p.1, writtenNode t p.2) ∈ writtenEntries t m := by
  intro m
  induction m with
  | nil => intro p hp; cases hp
  | cons e rest ih =>
    obtain ⟨s, x⟩ := e
    intro p hp
    rcases List.mem_cons.mp hp with rfl | hr
    · simp [writtenEntries]
    · simp only [writtenEntries]
      exact List.mem_cons_of_mem _ (ih p hr)

theorem readMapLoop_eq (t : STy) (node : JValue) : ∀ (fs : List (String × JValue))
    (acc : List (String × SValue)),
    (∀ p ∈ fs, p.1 ∉ acc.map Prod.fst) → distinctKeys (fs.map Prod.fst) = true →
    readMapLoop t node fs acc
      = acc ++ fs.map (fun p => (p.1, readNode t (node.get (.str p.1)) t.default)) := by
  intro fs
  induction fs with
  | nil => intro acc _ _; simp [readMapLoop]
  | cons e rest ih =>
    obtain ⟨s, w⟩ := e
    intro acc hfresh hdist
    rw [List.map_cons] at hdist
    have hdist' := distinctKeys_cons_iff.mp hdist
    simp only [readMapLoop]
    rw [mapIns_fresh acc s _ (hfresh (s, w) (List.mem_cons_self _ _))]
    have hfresh' : ∀ p ∈ rest, p.1 ∉ (acc ++ [(s, readNode t (node.get (.str s)) t.default)]).map Prod.fst := by
      intro p hp
      simp only [List.map_append, List.mem_append, not_or]
      refine ⟨hfresh p (List.mem_cons_of_mem _ hp), ?_⟩
      simp only [List.map_cons, List.map_nil, List.mem_singleton]
      intro hps
      exact hdist'.1 (hps ▸ List.mem_map.mpr ⟨p, hp, rfl⟩)
    rw [ih _ hfresh' hdist'.2]
    simp

theorem writtenEntries_decode (t : STy) (node : JValue) : ∀ m : List (String × SValue),
    (∀ p ∈ m, node.get (.str p.1) = writtenNode t p.2) →
    (∀ p ∈ m, readNode t (writtenNode t p.2) t.default = p.2) →
    (writtenEntries t m).map (fun p => (p.1, readNode t (node.get (.str p.1)) t.default)) = m := by
  intro m
  induction m with
  | nil => intro _ _; simp [writtenEntries]
  | cons e rest ih =>
    obtain ⟨s, x⟩ := e
    intro Hget Hrt
    simp only [writtenEntries, List.map_cons]
    rw [Hget (s, x) (List.mem_cons_self _ _), Hrt (s, x) (List.mem_cons_self _ _)]
    rw [ih (fun p hp => Hget p (List.mem_cons_of_mem _ hp))
          (fun p hp => Hrt p (List.mem_cons_of_mem _ hp))]

theorem writtenFields_keys : ∀ (fts : List (String × STy)) (fvs : List SValue),
    fts.length = fvs.length →
    (writtenFields fts fvs).map Prod.fst = fts.map Prod.fst := by
  intro fts
  induction fts with
  | nil => intro fvs _; cases fvs <;> simp [writtenFields]
  | cons ft fts ih =>
    obtain ⟨n, tf⟩ := ft
    intro fvs hlen
    cases fvs with
    | nil => simp at hlen
    | cons fv fvs =>
      simp only [List.length_cons, Nat.add_right_cancel_iff] at hlen
      simp [writtenFields, ih fvs hlen]

theorem mem_writtenFields : ∀ (fts : List (String × STy)) (fvs : List SValue)
    (p : (String × STy) × SValue), p ∈ List.zip fts fvs →
    (p.1.1, writtenNode p.1.2 p.2) ∈ writtenFields fts fvs := by
  intro fts
  induction fts with
  | nil => intro fvs p hp; simp at hp
  | cons ft fts ih =>
    obtain ⟨n, tf⟩ := ft
    intro fvs p hp
    cases fvs with
    | nil => simp at hp
    | cons fv fvs =>
      rw [List.zip_cons_cons] at hp
      rcases List.mem_cons.mp hp with rfl | hr
      · simp [writtenFields]
      · simp only [writtenFields]
        exact List.mem_cons_of_mem _ (ih fvs p hr)

theorem readFields_decode (sub : JValue) : ∀ (fts : List (String × STy)) (fvs : List SValue),
    fts.length = fvs.length →
    (∀ p ∈ List.zip fts fvs, sub.get (.str p.1.1) = writtenNode p.1.2 p.2) →
    (∀ p ∈ List.zip fts fvs, readNode p.1.2 (writtenNode p.1.2 p.2) p.1.2.default = p.2) →
    readFields fts sub (defaultFields fts) = fvs := by
  intro fts
  induction fts with
  | nil =>
    intro fvs hlen _ _
    cases fvs with
    | nil => simp [defaultFields, readFields]
    | cons fv fvs => simp at hlen
  | cons ft fts ih =>
    obtain ⟨n, tf⟩ := ft
    intro fvs hlen Hget Hrt
    cases fvs with
    | nil => simp at hlen
    | cons fv fvs =>
      simp only [List.length_cons, Nat.add_right_cancel_iff] at hlen
      simp only [defaultFields, readFields]
      rw [Hget ((n, tf), fv) (by simp [List.zip_cons_cons]),
          Hrt ((n, tf), fv) (by simp [List.zip_cons_cons])]
      rw [ih fvs hlen (fun p hp => Hget p (by simp [List.zip_cons_cons, hp]))
            (fun p hp => Hrt p (by simp [List.zip_cons_cons, hp]))]

/-- Round trip at the node level: decoding the node written for a well-typed value
into a default-constructed destination recovers the value. -/
theorem readNode_writtenNode : ∀ (t : STy) (v : SValue), wellTyped t v = true →
    readNode t (writtenNode t v) t.default = v := by
  intro t
  induction t using STy.indOn with
  | hint =>
    intro v h
    cases v
    case int n => simp [writtenNode, readNode, JValue.isNull, JValue.asInt]
    all_goals simp [wellTyped] at h
  | huint =>
    intro v h
    cases v
    case uint n => simp [writtenNode, readNode, JValue.isNull, JValue.asUInt]
    all_goals simp [wellTyped] at h
  | hbool =>
    intro v h
    cases v
    case bool b => simp [writtenNode, readNode, JValue.isNull, JValue.asBool]
    all_goals simp [wellTyped] at h
  | hstr =>
    intro v h
    cases v
    case str s => simp [writtenNode, readNode, JValue.isNull, JValue.asString]
    all_goals simp [wellTyped] at h
  | henum =>
    intro v h
    cases v
    case enum n =>
      simp only [wellTyped, Bool.and_eq_true, decide_eq_true_eq] at h
      simp [writtenNode, readNode, JValue.isNull, JValue.asInt, toSigned32_eq_self h.1 h.2]
    all_goals simp [wellTyped] at h
  | hseq t ih =>
    intro v h
    cases v
    case seq xs =>
      simp only [wellTyped] at h
      simp only [writtenNode, readNode, JValue.isArray, if_true]
      have hsz : (JValue.arr (writtenList t xs)).size = xs.length := by
        simp [JValue.size, writtenList_length]
      rw [hsz, List.range_eq_range']
      have := readSeqIdx_decode t xs (fun x hx => ih x (wtList_mem h hx)) []
      simpa using this
    all_goals simp [wellTyped] at h
  | hmap t ih =>
    intro v h
    cases v
    case map m =>
      simp only [wellTyped, Bool.and_eq_true] at h
      cases m with
      | nil => simp [writtenNode, readNode, JValue.isObject, STy.default]
      | cons e rest =>
        have hdistw : distinctKeys ((writtenEntries t (e :: rest)).map Prod.fst) = true := by
          rw [writtenEntries_keys]; exact h.1
        simp only [writtenNode, readNode, JValue.isObject, if_true, JValue.members]
        rw [readMapLoop_eq t _ _ [] (by simp) hdistw]
        rw [List.nil_append]
        rw [writtenEntries_decode t _ (e :: rest) ?hget ?hrt]
        case hget =>
          intro p hp
          simp only [JValue.get]
          rw [lookup_of_distinct _ _ _ hdistw (mem_writtenEntries t _ p hp)]
          rfl
        case hrt =>
          intro p hp
          exact ih p.2 (wtEntries_mem h.2 hp)
    all_goals simp [wellTyped] at h
  | hcomp fts ihf =>
    intro v h
    cases v
    case comp fvs =>
      simp only [wellTyped, Bool.and_eq_true] at h
      have hlen := wtFields_length h.2
      cases fts with
      | nil =>
        cases fvs with
        | nil => simp [writtenNode, readNode, JValue.isNull, STy.default, defaultFields]
        | cons fv fvs => simp [wtFields] at h
      | cons ft fts =>
        cases fvs with
        | nil => obtain ⟨n, tf⟩ := ft; simp [wtFields] at h
        | cons fv fvs =>
          have hdistw : distinctKeys ((writtenFields (ft :: fts) (fv :: fvs)).map Prod.fst) = true := by
            rw [writtenFields_keys _ _ hlen]; exact h.1
          obtain ⟨n, tf⟩ := ft
          simp only [writtenNode, readNode]
          rw [if_neg (by simp [writtenFields, JValue.isNull])]
          simp only [STy.default, SValue.fieldVals]
          congr 1
          refine readFields_decode _ _ _ hlen ?_ ?_
          · intro p hp
            simp only [JValue.get]
            rw [lookup_of_distinct _ _ _ hdistw (mem_writtenFields _ _ p hp)]
            rfl
          · intro p hp
            exact ihf p.1 (List.of_mem_zip hp).1 p.2 (wtFields_zip h.2 hp)
    all_goals simp [wellTyped] at h

theorem isNull_iff {jv : JValue} : jv.isNull = true ↔ jv = .null := by
  cases jv <;> simp [JValue.isNull]

/-- On a null node every read-direction decode leaves a well-typed destination
exactly as it was (absent keys read as null children). -/
theorem readNode_null (t : STy) (v : SValue) (h : wellTyped t v = true) :
    readNode t .null v = v := by
  cases t
  case cenum =>
    cases v
    case enum n =>
      simp only [wellTyped, Bool.and_eq_true, decide_eq_true_eq] at h
      simp [readNode, JValue.isNull, SValue.enumVal, toSigned32_eq_self h.1 h.2]
    all_goals simp [wellTyped] at h
  all_goals simp [readNode, JValue.isNull, JValue.isArray, JValue.isObject]

theorem readSeqIdx_eq_map (t : STy) (node : JValue) : ∀ is : List Nat,
    readSeqIdx t node is = is.map (fun i => readNode t (node.get (.idx i)) t.default) := by
  intro is
  induction is with
  | nil => simp [readSeqIdx]
  | cons i rest ih => simp [readSeqIdx, ih]

theorem isMember_setField : ∀ (fs : List (String × JValue)) (s : String) (w : JValue),
    (JValue.obj (setField fs s w)).isMember s = true := by
  intro fs
  induction fs with
  | nil => intro s w; simp [setField, JValue.isMember]
  | cons p rest ih =>
    obtain ⟨k, w'⟩ := p
    intro s w
    by_cases hks : k = s
    · simp [setField, hks, JValue.isMember]
    · have := ih s w
      simp only [JValue.isMember, List.any_eq_true, decide_eq_true_eq] at this ⊢
      simp only [setField, if_neg hks]
      obtain ⟨q, hq, hq2⟩ := this
      exact ⟨q, List.mem_cons_of_mem _ hq, hq2⟩

/-- C1: for every supported value shape (scalar, enum, string, sequence, string-keyed
map, nested composite) and every value representable within the documented 32-bit
numeric bounds (together: `wellTyped`), performing Serialize(key, value) in Write
mode into an empty tree and then Serialize(key, target) in Read mode on that tree,
with target freshly default-constructed of the same type, yields the original
value. -/
theorem c1_round_trip (t : STy) (v : SValue) (k : JKey) (h : wellTyped t v = true) :
    ((JsonSerializer.mk false
        ((JsonSerializer.mk true .null).Serialize t k v).1.JsonValue).Serialize t k
        (STy.default t)).2 = v := by
  simp only [JsonSerializer.Serialize, if_true, if_false]
  rw [serializeW_eq_set t v h]
  simp only [serializeR]
  rw [get_set_null]
  exact readNode_writtenNode t v h

/-- A sample composite type exercising every supported shape, used by the round-trip
witness. -/
def sampleTy : STy :=
  .comp [("a", .cint), ("b", .cseq .cstr), ("c", .cmap .cuint), ("d", .cenum),
         ("e", .cbool), ("f", .comp [("x", .cint)]), ("g", .cmap .cint)]

/-- A sample value of `sampleTy`. -/
def sampleVal : SValue :=
  .comp [.int (-5), .seq [.str "p", .str "q"],
         .map [("k1", .uint 7), ("k2", .uint 4294967295)], .enum 3, .bool true,
         .comp [.int 9], .map []]

/-- Witness for C1 at a concrete nested value covering every shape. -/
theorem c1_round_trip_witness :
    wellTyped sampleTy sampleVal = true ∧
    ((JsonSerializer.mk false
        ((JsonSerializer.mk true .null).Serialize sampleTy (.str "root") sampleVal).1.JsonValue).Serialize
        sampleTy (.str "root") (STy.default sampleTy)).2 = sampleVal :=
  ⟨by simp [sampleTy, sampleVal, wellTyped, wtList, wtEntries, wtFields, distinctKeys],
   c1_round_trip sampleTy sampleVal (.str "root")
     (by simp [sampleTy, sampleVal, wellTyped, wtList, wtEntries, wtFields, distinctKeys])⟩

/-- C2: for every read-direction operation (the symmetric Serialize in Read mode, and
ReadOnly in Read mode) and every (well-typed) destination value, an absent/null node
at the key, or a shape mismatch (expected array for a sequence, expected object for
a map), is a silent no-op: the destination is left exactly equal to its pre-call
value. No error is signalled: the operations are total and return normally. -/
theorem c2_read_noop (t te : STy) (jv : JValue) (k : JKey) (v : SValue)
    (s : JsonSerializer) (h : wellTyped t v = true) :
    ((jv.get k).isNull = true → serializeR t jv k v = v) ∧
    ((jv.get k).isArray = false → serializeR (.cseq te) jv k v = v) ∧
    ((jv.get k).isObject = false → serializeR (.cmap te) jv k v = v) ∧
    (s.IsWriter = false → (s.JsonValue.get k).isNull = true → s.ReadOnlyFund t k v = v) ∧
    (s.IsWriter = false → s.JsonValue.isArray = false → s.ReadOnlyVec te v = v) ∧
    (s.IsWriter = false → s.JsonValue.isObject = false → s.ReadOnlyMapOp te v = v) := by
  refine ⟨?_, ?_, ?_, ?_, ?_, ?_⟩
  · intro hn
    rw [serializeR, isNull_iff.mp hn]
    exact readNode_null t v h
  · intro hn
    simp [serializeR, readNode, hn]
  · intro hn
    simp [serializeR, readNode, hn]
  · intro hw hn
    rw [JsonSerializer.ReadOnlyFund, hw]
    simp only [Bool.not_false, if_true]
    rw [serializeR, isNull_iff.mp hn]
    exact readNode_null t v h
  · intro hw hn
    rw [JsonSerializer.ReadOnlyVec, hw]
    simp [readNode, hn]
  · intro hw hn
    rw [JsonSerializer.ReadOnlyMapOp, hw]
    simp [readNode, hn]

/-- Witness for C2: an absent key (missing-key idempotence, `count = 42` against an
empty object) and a scalar node where an array was expected. -/
theorem c2_read_noop_witness :
    wellTyped .cint (.int 42) = true ∧
    serializeR .cint (JValue.obj []) (.str "count") (.int 42) = .int 42 ∧
    serializeR (.cseq .cint) (JValue.obj [("k", .int 7)]) (.str "k")
      (.seq [.int 1, .int 2, .int 3]) = .seq [.int 1, .int 2, .int 3] := by
  refine ⟨by simp [wellTyped], ?_, ?_⟩
  · exact (c2_read_noop .cint .cint (JValue.obj []) (.str "count") (.int 42)
      ⟨false, .null⟩ (by simp [wellTyped])).1 (by rfl)
  · exact (c2_read_noop (.cseq .cint) .cint (JValue.obj [("k", .int 7)]) (.str "k")
      (.seq [.int 1, .int 2, .int 3]) ⟨false, .null⟩
      (by simp [wellTyped, wtList])).2.1 (by rfl)

/-- The elements of a sequence value. -/
def SValue.seqElems : SValue → List SValue
  | .seq xs => xs
  | _ => []

/-- C3: when the node at the key is an array of n elements, reading a sequence
clears the destination and, for each array index 0..n-1 in order, default-constructs
an element, deserializes it from that index, and appends it: the result is exactly
the n decoded elements in array order, independent of the destination's prior
contents (which do not occur in the result). -/
theorem c3_seq_read (t : STy) (jv : JValue) (k : JKey) (old : List SValue)
    (es : List JValue) (h : jv.get k = .arr es) :
    serializeR (.cseq t) jv k (.seq old)
      = .seq ((List.range es.length).map fun i => readNode t (es.getD i .null) t.default) ∧
    (serializeR (.cseq t) jv k (.seq old)).seqElems.length = es.length ∧
    (∀ old', serializeR (.cseq t) jv k (.seq old')
        = serializeR (.cseq t) jv k (.seq old)) := by
  have hmain : ∀ w : List SValue, serializeR (.cseq t) jv k (.seq w)
      = .seq ((List.range es.length).map fun i => readNode t (es.getD i .null) t.default) := by
    intro w
    rw [serializeR, h]
    simp only [readNode, JValue.isArray, if_true, JValue.size]
    rw [readSeqIdx_eq_map]
    simp [JValue.get]
  refine ⟨hmain old, ?_, fun old' => (hmain old').trans (hmain old).symm⟩
  rw [hmain old]
  simp [SValue.seqElems]

/-- Witness for C3: destination pre-populated with 5 garbage elements, input array
`a b c`; after the read the destination is exactly those 3 strings in order. -/
theorem c3_seq_read_witness :
    (JValue.obj [("k", .arr [.str "a", .str "b", .str "c"])]).get (.str "k")
      = .arr [.str "a", .str "b", .str "c"] ∧
    serializeR (.cseq .cstr) (JValue.obj [("k", .arr [.str "a", .str "b", .str "c"])])
      (.str "k") (.seq [.int 0, .int 0, .int 0, .int 0, .int 0])
      = .seq [.str "a", .str "b", .str "c"] := by
  refine ⟨rfl, ?_⟩
  refine ((c3_seq_read .cstr (JValue.obj [("k", .arr [.str "a", .str "b", .str "c"])])
      (.str "k") [.int 0, .int 0, .int 0, .int 0, .int 0]
      [.str "a", .str "b", .str "c"] rfl).1).trans ?_
  simp [List.range_succ, readNode, JValue.isNull, JValue.asString, STy.default]

/-- C4: when the node at the key is an object, reading a string-keyed map clears the
destination and, for every key present in the input object, default-constructs a
value, deserializes it under that same key, and inserts it: the result holds exactly
the input object's keys with their decoded values, independent of the map's prior
contents (which do not occur in the result). -/
theorem c4_map_read (t : STy) (jv : JValue) (k : JKey) (old : List (String × SValue))
    (fs : List (String × JValue)) (h : jv.get k = .obj fs)
    (hdist : distinctKeys (fs.map Prod.fst) = true) :
    serializeR (.cmap t) jv k (.map old)
      = .map (fs.map fun p => (p.1, readNode t p.2 t.default)) ∧
    (∀ old', serializeR (.cmap t) jv k (.map old')
        = serializeR (.cmap t) jv k (.map old)) := by
  have hmain : ∀ w : List (String × SValue), serializeR (.cmap t) jv k (.map w)
      = .map (fs.map fun p => (p.1, readNode t p.2 t.default)) := by
    intro w
    rw [serializeR, h]
    simp only [readNode, JValue.isObject, if_true, JValue.members]
    rw [readMapLoop_eq t _ fs [] (by simp) hdist, List.nil_append]
    congr 1
    refine List.map_congr_left ?_
    intro p hp
    have hget : (JValue.obj fs).get (.str p.1) = p.2 := by
      simp only [JValue.get]
      rw [lookup_of_distinct fs p.1 p.2 hdist (by simpa using hp)]
      rfl
    rw [hget]
  exact ⟨hmain old, fun old' => (hmain old').trans (hmain old).symm⟩

/-- Witness for C4: input object with keys x, y, z read into a map with unrelated
prior contents; the result is exactly the three decoded entries. -/
theorem c4_map_read_witness :
    (JValue.obj [("k", .obj [("x", .int 1), ("y", .int 2), ("z", .int 3)])]).get (.str "k")
      = .obj [("x", .int 1), ("y", .int 2), ("z", .int 3)] ∧
    distinctKeys ["x", "y", "z"] = true ∧
    serializeR (.cmap .cint)
      (JValue.obj [("k", .obj [("x", .int 1), ("y", .int 2), ("z", .int 3)])]) (.str "k")
      (.map [("old", .int 99)])
      = .map [("x", .int 1), ("y", .int 2), ("z", .int 3)] := by
  refine ⟨rfl, by simp [distinctKeys], ?_⟩
  refine ((c4_map_read .cint
      (JValue.obj [("k", .obj [("x", .int 1), ("y", .int 2), ("z", .int 3)])]) (.str "k")
      [("old", .int 99)] [("x", .int 1), ("y", .int 2), ("z", .int 3)] rfl
      (by simp [distinctKeys])).1).trans ?_
  simp [readNode, JValue.isNull, JValue.asInt, STy.default]

/-- C5: wide integers (long / unsigned long / size_t) are written through a 32-bit
signed or unsigned cast: the stored value is the value reduced mod 2^32 (two's
complement for the signed cast). In particular unsigned 4294967296 (2^32) writes and
reads back as 0 (the value mod 2^32) with no error, while 2147483647 (signed) and
4294967295 (unsigned) survive exactly within their respective 32-bit bounds. -/
theorem c5_wide_int_truncation (k : JKey) :
    (∀ v : Nat, Read_unsigned_long (Write_unsigned_long .null k v) k 0 = v % 2 ^ 32) ∧
    (∀ v : Nat, Read_unsigned_long (Write_size_t .null k v) k 0 = v % 2 ^ 32) ∧
    (∀ v : Int, Read_long (Write_long .null k v) k 0 = toSigned32 v) ∧
    (Read_unsigned_long (Write_unsigned_long .null k 4294967296) k 0 = 0) ∧
    (Read_unsigned_long (Write_unsigned_long .null k 4294967295) k 0 = 4294967295) ∧
    (Read_long (Write_long .null k 2147483647) k 0 = 2147483647) := by
  have hu : ∀ v : Nat, Read_unsigned_long (Write_unsigned_long .null k v) k 0 = v % 2 ^ 32 := by
    intro v
    rw [Read_unsigned_long, Write_unsigned_long, get_set_null]
    simp [JValue.isNull, JValue.asUInt]
  have hl : ∀ v : Int, Read_long (Write_long .null k v) k 0 = toSigned32 v := by
    intro v
    rw [Read_long, Write_long, get_set_null]
    simp [JValue.isNull, JValue.asInt]
  refine ⟨hu, hu, hl, ?_, ?_, ?_⟩
  · rw [hu]; norm_num
  · rw [hu]; norm_num
  · rw [hl]; rw [toSigned32_eq_self (by norm_num) (by norm_num)]

/-- C6: writing a class-typed value opens a child context on a fresh node, recurses,
and unconditionally attaches the child node at the key: after the write the key is
present in the (null-or-object) parent, even when the child node ended up null, as
happens for a composite with no fields — no omission-on-empty is performed. -/
theorem c6_comp_write_attaches (fts : List (String × STy)) (fvs : List SValue)
    (jv : JValue) (s : String) (hjv : jv.isNull = true ∨ jv.isObject = true) :
    (serializeW (.comp fts) jv (.str s) (.comp fvs)).isMember s = true ∧
    serializeW (.comp []) jv (.str s) (.comp []) = jv.set (.str s) .null := by
  constructor
  · simp only [serializeW]
    rcases hjv with hn | ho
    · rw [isNull_iff.mp hn]
      simp [JValue.set, JValue.isMember]
    · cases jv <;> simp [JValue.isObject] at ho
      case obj fsj => simp only [JValue.set]; exact isMember_setField fsj s _
  · simp [serializeW, writeFields]

/-- Witness for C6: writing an empty composite into an empty tree attaches a null
child, and the key is nevertheless present. -/
theorem c6_comp_write_attaches_witness :
    (JValue.null.isNull = true ∨ JValue.null.isObject = true) ∧
    (serializeW (.comp []) JValue.null (.str "empty") (.comp [])).isMember "empty" = true ∧
    serializeW (.comp []) JValue.null (.str "empty") (.comp [])
      = .obj [("empty", JValue.null)] := by
  refine ⟨Or.inl rfl, ?_, ?_⟩
  · exact (c6_comp_write_attaches [] [] JValue.null "empty" (Or.inl rfl)).1
  · rw [(c6_comp_write_attaches [] [] JValue.null "empty" (Or.inl rfl)).2]
    rfl

/-- C7 counterexample: WriteOnly is not a no-op in Read mode for every accepted value
shape. The Json::Value overload of WriteOnly (lines 291-296) calls Write with no mode
check: in a Read-mode context bound to an empty tree it attaches the node anyway,
changing the bound tree. -/
theorem c7_counterexample :
    (JsonSerializer.mk false JValue.null).IsWriter = false ∧
    (JsonSerializer.WriteOnlyJson (JsonSerializer.mk false JValue.null) (.str "k")
        (.int 5)).JsonValue = JValue.obj [("k", JValue.int 5)] ∧
    JValue.obj [("k", JValue.int 5)] ≠ JValue.null := by
  refine ⟨rfl, rfl, by simp⟩

/-- C7 amended: WriteOnly for fundamental values, iterator ranges and maps performs
only the write-direction algorithm (a no-op on both the tree and the value when the
mode is Read), and every ReadOnly overload performs only the read-direction
algorithm (a no-op when the mode is Write), with the same absent-key and
shape-mismatch no-op rules as the symmetric operation; however the Json::Value
overload of WriteOnly writes unconditionally in both modes, and the pointer overload
of WriteOnly forwards to the symmetric Serialize, so in Read mode it reads into the
pointee. -/
theorem c7_amended (s : JsonSerializer) (t te : STy) (k : JKey) (v : SValue)
    (xs : List SValue) (m : List (String × SValue)) (jn : JValue) :
    (s.IsWriter = false → s.WriteOnlyFund t k v = s) ∧
    (s.IsWriter = false → s.WriteOnlyRange t k xs = s) ∧
    (s.IsWriter = false → s.WriteOnlyMap t k m = s) ∧
    (s.IsWriter = true → s.ReadOnlyFund t k v = v) ∧
    (s.IsWriter = true → s.ReadOnlyVec te v = v) ∧
    (s.IsWriter = true → s.ReadOnlyMapOp te v = v) ∧
    (s.WriteOnlyJson k jn = { s with JsonValue := s.JsonValue.set k jn }) ∧
    (s.WriteOnlyPtr t k v = s.Serialize t k v) ∧
    (s.IsWriter = false → (s.JsonValue.get k).isNull = true → wellTyped t v = true →
        s.ReadOnlyFund t k v = v) ∧
    (s.IsWriter = false → s.JsonValue.isArray = false → s.ReadOnlyVec te v = v) ∧
    (s.IsWriter = false → s.JsonValue.isObject = false → s.ReadOnlyMapOp te v = v) := by
  refine ⟨?_, ?_, ?_, ?_, ?_, ?_, rfl, rfl, ?_, ?_, ?_⟩
  · intro hw; simp [JsonSerializer.WriteOnlyFund, hw]
  · intro hw; simp [JsonSerializer.WriteOnlyRange, hw]
  · intro hw; simp [JsonSerializer.WriteOnlyMap, hw]
  · intro hw; simp [JsonSerializer.ReadOnlyFund, hw]
  · intro hw; simp [JsonSerializer.ReadOnlyVec, hw]
  · intro hw; simp [JsonSerializer.ReadOnlyMapOp, hw]
  · intro hw hn hv
    rw [JsonSerializer.ReadOnlyFund, hw]
    simp only [Bool.not_false, if_true]
    rw [serializeR, isNull_iff.mp hn]
    exact readNode_null t v hv
  · intro hw hn
    rw [JsonSerializer.ReadOnlyVec, hw]
    simp [readNode, hn]
  · intro hw hn
    rw [JsonSerializer.ReadOnlyMapOp, hw]
    simp [readNode, hn]

/-- Witness for C7 amended: a Read-mode context leaves the tree untouched under the
fundamental WriteOnly, and a Write-mode context leaves the value untouched under the
fundamental ReadOnly. -/
theorem c7_amended_witness :
    (JsonSerializer.mk false (JValue.obj [])).WriteOnlyFund .cint (.str "k") (.int 3)
      = JsonSerializer.mk false (JValue.obj []) ∧
    (JsonSerializer.mk true (JValue.obj [])).ReadOnlyFund .cint (.str "k") (.int 3)
      = .int 3 := by
  constructor
  · exact (c7_amended (JsonSerializer.mk false (JValue.obj [])) .cint .cint (.str "k")
      (.int 3) [] [] JValue.null).1 rfl
  · exact (c7_amended (JsonSerializer.mk true (JValue.obj [])) .cint .cint (.str "k")
      (.int 3) [] [] JValue.null).2.2.2.1 rfl

/-- C8: an enum serializes in Write mode as its underlying integer value (cast
through int), and in Read mode a present node's integer is decoded and cast back to
the enum with no range validation: an arbitrary stored integer such as 9999 is
accepted silently and produces the corresponding (invalid) enum value. -/
theorem c8_enum_cast (jv : JValue) (k : JKey) (n : Int) (v : SValue)
    (hp : (jv.get k).isNull = false) :
    serializeW .cenum jv k (.enum n) = jv.set k (.int (toSigned32 n)) ∧
    serializeR .cenum jv k v = .enum ((jv.get k).asInt) ∧
    serializeR .cenum (JValue.obj [("e", .int 9999)]) (.str "e") (.enum 0) = .enum 9999 := by
  refine ⟨by simp [serializeW], ?_, ?_⟩
  · rw [serializeR]
    simp [readNode, hp]
  · rw [serializeR]
    simp [readNode, JValue.get, List.lookup, JValue.isNull, JValue.asInt]

/-- Witness for C8: an in-range enum write and an out-of-range read at concrete
inputs. -/
theorem c8_enum_cast_witness :
    ((JValue.obj [("e", JValue.int 7)]).get (.str "e")).isNull = false ∧
    serializeR .cenum (JValue.obj [("e", JValue.int 7)]) (.str "e") (.enum 0)
      = .enum 7 ∧
    serializeR .cenum (JValue.obj [("e", .int 9999)]) (.str "e") (.enum 0) = .enum 9999 := by
  have h := c8_enum_cast (JValue.obj [("e", JValue.int 7)]) (.str "e") 0 (.enum 0) rfl
  exact ⟨rfl, by rw [h.2.1]; rfl, h.2.2⟩

/-- C9: a context's mode flag is fixed at construction (the three constructors,
lines 81-89, only set it from their argument) and is never changed by any operation;
every recursive call made by Serialize, WriteOnly or ReadOnly constructs its child
contexts as `JsonSerializer subVal(IsWriter)` (lines 94, 159, 204, 236, 253, 268,
285), so each child context carries exactly its parent's mode
(`childContextModes`). -/
theorem c9_mode_fixed (s : JsonSerializer) (t : STy) (k : JKey) (v : SValue)
    (xs : List SValue) (m : List (String × SValue)) :
    ((s.Serialize t k v).1.IsWriter = s.IsWriter) ∧
    (∀ mo ∈ childContextModes s t k, mo = s.IsWriter) ∧
    ((s.WriteOnlyFund t k v).IsWriter = s.IsWriter) ∧
    ((s.WriteOnlyRange t k xs).IsWriter = s.IsWriter) ∧
    ((s.WriteOnlyMap t k m).IsWriter = s.IsWriter) ∧
    ((s.WriteOnlyJson k .null).IsWriter = s.IsWriter) ∧
    ((JsonSerializer.mk s.IsWriter s.JsonValue).IsWriter = s.IsWriter) := by
  refine ⟨?_, ?_, ?_, ?_, ?_, rfl, rfl⟩
  · by_cases hw : s.IsWriter <;> simp [JsonSerializer.Serialize, hw]
  · intro mo hmo
    cases t <;> simp only [childContextModes] at hmo
    case cmap te =>
      by_cases hw : s.IsWriter
      · rw [if_pos hw] at hmo
        simpa using hmo
      · rw [if_neg hw] at hmo
        rcases List.mem_cons.mp hmo with rfl | hr
        · rfl
        · obtain ⟨_, _, rfl⟩ := List.mem_map.mp hr
          rfl
    case comp fts => simpa using hmo
    case cseq te => simpa using hmo
    all_goals cases hmo
  · by_cases hw : s.IsWriter <;> simp [JsonSerializer.WriteOnlyFund, hw]
  · by_cases hw : s.IsWriter <;> simp [JsonSerializer.WriteOnlyRange, hw]
  · by_cases hw : s.IsWriter <;> simp [JsonSerializer.WriteOnlyMap, hw]

/-- Witness for C9: at a concrete Read-mode context serializing a map, every spawned
child context mode equals the parent's, and the operation leaves the mode intact. -/
theorem c9_mode_fixed_witness :
    ((JsonSerializer.mk false (JValue.obj [("k", JValue.obj [("x", JValue.int 1)])])).Serialize
        (.cmap .cint) (.str "k") (.map [])).1.IsWriter = false ∧
    (false ∈ childContextModes
        (JsonSerializer.mk false (JValue.obj [("k", JValue.obj [("x", JValue.int 1)])]))
        (.cmap .cint) (.str "k") → false = false) := by
  have h := c9_mode_fixed
    (JsonSerializer.mk false (JValue.obj [("k", JValue.obj [("x", JValue.int 1)])]))
    (.cmap .cint) (.str "k") (.map []) [] []
  exact ⟨h.1, h.2.1 false⟩

/-- C10: for arithmetic destination types with no dedicated Read overload the
generic overload decodes a present node as a signed 32-bit int and casts to the
destination, so a stored value outside the signed 32-bit range (here the unsigned
node 4294967295) is truncated through the signed intermediate (to -1) even when the
destination type (long long, `toSigned64`) represents the stored value exactly. -/
theorem c10_generic_read_truncates (castDest : Int → Int) (jv : JValue) (k : JKey)
    (v : Int) (hp : (jv.get k).isNull = false) :
    Read_arith castDest jv k v = castDest ((jv.get k).asInt) ∧
    Read_arith toSigned64 (JValue.obj [("f", .uint 4294967295)]) (.str "f") 0 = -1 ∧
    toSigned64 4294967295 = 4294967295 := by
  refine ⟨?_, ?_, by norm_num [toSigned64]⟩
  · rw [Read_arith]
    simp [hp]
  · rw [Read_arith]
    simp only [JValue.get, List.lookup]
    norm_num [JValue.isNull, JValue.asInt, toSigned32, toSigned64]

/-- Witness for C10 at a present node: a long long destination receives -1 from a
stored 4294967295. -/
theorem c10_generic_read_truncates_witness :
    ((JValue.obj [("f", JValue.uint 4294967295)]).get (.str "f")).isNull = false ∧
    Read_arith toSigned64 (JValue.obj [("f", .uint 4294967295)]) (.str "f") 0 = -1 := by
  have h := c10_generic_read_truncates toSigned64
    (JValue.obj [("f", JValue.uint 4294967295)]) (.str "f") 0 rfl
  exact ⟨rfl, h.2.1⟩
